import Mathlib

/-!
Shallow embedding of the `load-calculation` tool (`src/main.rs`).

Numeric `f64` values are modelled by `ℚ` (exact real-number semantics) in the
interpolation / totals pipeline.  For the two deserialization helpers, where
IEEE special values (NaN, infinities) matter, `f64` is modelled by the
inductive `FVal` which carries those special values explicitly.
-/

namespace LoadCalc

/-- Model of an IEEE double for the deserialization layer: NaN, the two
infinities, or a finite value (modelled exactly as a rational). -/
inductive FVal where
  | nan : FVal
  | inf : FVal
  | ninf : FVal
  | num : ℚ → FVal
deriving DecidableEq

/-- IEEE `a > b` comparison on `FVal`: any comparison involving NaN is false. -/
def fgt : FVal → FVal → Bool
  | .nan, _ => false
  | _, .nan => false
  | .num a, .num b => decide (b < a)
  | .inf, .inf => false
  | .inf, _ => true
  | _, .inf => false
  | .ninf, _ => false
  | _, .ninf => true

/-- Model of Rust `a.partial_cmp(&b)` on doubles: `none` exactly when either
operand is NaN (this is the `Option` whose `unwrap` appears in the point
sort of `calculate_heating_capacity_at_temp`). -/
def fvalCompare : FVal → FVal → Option Ordering
  | .nan, _ => none
  | _, .nan => none
  | .num a, .num b => some (compare a b)
  | .inf, .inf => some .eq
  | .inf, _ => some .gt
  | _, .inf => some .lt
  | .ninf, .ninf => some .eq
  | .ninf, _ => some .lt
  | _, .ninf => some .gt

/-- Outcome of reading one CSV cell, i.e. the input that
`deserialize_f64_custom` / `deserialize_ahri` inspect:
`missing` models `Ok(None)`, an empty/whitespace-only string, or a
deserializer error (all of which the Rust code maps to `None`);
`unparseable` models text that fails `str::parse`; `parsed v` models a
successfully parsed double `v` (possibly NaN or ±inf). -/
inductive CellValue where
  | missing : CellValue
  | unparseable : CellValue
  | parsed : FVal → CellValue

/-- `deserialize_f64_custom` (src/main.rs:13-30): keep a parsed value only
when `v > -90000.0`; everything else becomes `None`. -/
def deserialize_f64_custom : CellValue → Option FVal
  | .parsed v => if fgt v (.num (-90000)) then some v else none
  | _ => none

/-- Rust `v as u64` saturating cast from double. -/
def f64_as_u64 : FVal → Nat
  | .nan => 0
  | .inf => 2 ^ 64 - 1
  | .ninf => 0
  | .num q => if q ≤ 0 then 0 else min (2 ^ 64 - 1) q.floor.toNat

/-- `deserialize_ahri` (src/main.rs:32-41): keep only when `v > 0.0`,
casting to `u64`; everything else becomes `None`. -/
def deserialize_ahri : CellValue → Option Nat
  | .parsed v => if fgt v (.num 0) then some (f64_as_u64 v) else none
  | _ => none

/-- The numeric fields of `MachineData` that feed the interpolation points,
at the `FVal` level (used to reason about NaN reachability). -/
structure MachineDataF where
  lowest_temp : Option FVal
  btu_lowest_max : Option FVal
  btu_5_max : Option FVal
  btu_17_max : Option FVal
  btu_47_max : Option FVal

/-- Point collection of `calculate_heating_capacity_at_temp`
(src/main.rs:80-88) at the `FVal` level. -/
def collectPointsF (m : MachineDataF) : List (FVal × FVal) :=
  (match m.lowest_temp, m.btu_lowest_max with
   | some temp, some val => [(temp, val)]
   | _, _ => []) ++
  (match m.btu_5_max with | some val => [(.num 5, val)] | none => []) ++
  (match m.btu_17_max with | some val => [(.num 17, val)] | none => []) ++
  (match m.btu_47_max with | some val => [(.num 47, val)] | none => [])

/-- `MachineData` (src/main.rs:44-76), with doubles modelled as `ℚ`. -/
structure MachineData where
  model_number : String
  machine_code : Option String
  ahri : Option Nat
  btu_95_min : Option ℚ
  btu_lowest_max : Option ℚ
  lowest_temp : Option ℚ
  btu_5_max : Option ℚ
  btu_17_max : Option ℚ
  btu_17_rated : Option ℚ
  btu_47_max : Option ℚ
deriving DecidableEq

/-- Point collection of `calculate_heating_capacity_at_temp`
(src/main.rs:80-88): the (lowest_temp, lowest_max) pair when both halves are
present, then the 5 / 17-max / 47 points when present. -/
def collectPoints (m : MachineData) : List (ℚ × ℚ) :=
  (match m.lowest_temp, m.btu_lowest_max with
   | some temp, some val => [(temp, val)]
   | _, _ => []) ++
  (match m.btu_5_max with | some val => [(5, val)] | none => []) ++
  (match m.btu_17_max with | some val => [(17, val)] | none => []) ++
  (match m.btu_47_max with | some val => [(47, val)] | none => [])

/-- Comparison key of the point sort (src/main.rs:92): ascending temperature. -/
def ptLE : ℚ × ℚ → ℚ × ℚ → Prop := fun a b => a.1 ≤ b.1

instance : DecidableRel ptLE := fun a b => inferInstanceAs (Decidable (a.1 ≤ b.1))

/-- Temperature separation of two points by at least the 1e-6 tolerance. -/
def sep : ℚ × ℚ → ℚ × ℚ → Prop := fun p q => 1 / 1000000 ≤ |p.1 - q.1|

instance : DecidableRel sep := fun p q =>
  inferInstanceAs (Decidable (1 / 1000000 ≤ |p.1 - q.1|))

instance : IsTotal (ℚ × ℚ) ptLE := ⟨fun a b => le_total a.1 b.1⟩

instance : IsTrans (ℚ × ℚ) ptLE := ⟨fun _ _ _ h h' => le_trans h h'⟩

/-- The stable sort `points.sort_by(|a, b| a.0.partial_cmp(&b.0).unwrap())`
(src/main.rs:92); any stable sort by the same key computes the same list. -/
def sortPoints (ps : List (ℚ × ℚ)) : List (ℚ × ℚ) :=
  List.insertionSort ptLE ps

/-- The `points.windows(2)` scan (src/main.rs:100-107): the first adjacent
pair whose closed temperature interval contains the target. -/
def findWindow (t : ℚ) : List (ℚ × ℚ) → Option ((ℚ × ℚ) × (ℚ × ℚ))
  | a :: b :: rest =>
    if a.1 ≤ t ∧ t ≤ b.1 then some (a, b) else findWindow t (b :: rest)
  | _ => none

/-- `(points[len-2], points[len-1])` (src/main.rs:96-98): the two highest
points of a list of length at least two. -/
def lastTwo : List (ℚ × ℚ) → Option ((ℚ × ℚ) × (ℚ × ℚ))
  | [a, b] => some (a, b)
  | _ :: b :: c :: rest => lastTwo (b :: c :: rest)
  | _ => none

/-- Interpolation step of `calculate_heating_capacity_at_temp`
(src/main.rs:110-116): degenerate-interval guard, then
`y1 + (target - x1) * slope`. -/
def interpPair (t : ℚ) (pq : (ℚ × ℚ) × (ℚ × ℚ)) : ℚ :=
  let x1 := pq.1.1
  let y1 := pq.1.2
  let x2 := pq.2.1
  let y2 := pq.2.2
  if |x2 - x1| < 1 / 1000000 then y1
  else
    let slope := (y2 - y1) / (x2 - x1)
    y1 + (t - x1) * slope

/-- Bracketing-pair selection of `calculate_heating_capacity_at_temp`
(src/main.rs:94-108), on the sorted point list.  The `getD` defaults mirror
the source (`found` is initialised to `(points[0], points[1])`; the last-two
default is unreachable for lists of length at least two). -/
def selectPair (sorted : List (ℚ × ℚ)) (t : ℚ) : (ℚ × ℚ) × (ℚ × ℚ) :=
  match sorted with
  | p0 :: p1 :: rest =>
    if t ≤ p0.1 then (p0, p1)
    else if ((p1 :: rest).getLast (List.cons_ne_nil _ _)).1 ≤ t then
      (lastTwo (p0 :: p1 :: rest)).getD (p0, p1)
    else
      (findWindow t (p0 :: p1 :: rest)).getD (p0, p1)
  | _ => ((0, 0), (0, 0))

/-- `MachineData::calculate_heating_capacity_at_temp` (src/main.rs:79-117). -/
def calculate_heating_capacity_at_temp (m : MachineData) (target_temp : ℚ) : ℚ :=
  let points := collectPoints m
  if points.isEmpty then 0
  else if points.length = 1 then points.headI.2
  else interpPair target_temp (selectPair (sortPoints points) target_temp)

/-- Bracketing-pair selection as the spec words it (spec §4.3 step 5): the two
lowest points when the target is at or below the lowest surviving
temperature, the two highest when at or above the highest, otherwise the
first adjacent ascending pair whose closed interval contains the target
(undefined — `none` — if no branch applies). -/
def spec_bracket (sorted : List (ℚ × ℚ)) (t : ℚ) : Option ((ℚ × ℚ) × (ℚ × ℚ)) :=
  match sorted with
  | p0 :: p1 :: rest =>
    if t ≤ p0.1 then some (p0, p1)
    else if ((p1 :: rest).getLast (List.cons_ne_nil _ _)).1 ≤ t then
      lastTwo (p0 :: p1 :: rest)
    else
      findWindow t (p0 :: p1 :: rest)
  | _ => none

/-- Capacity as the spec words it (spec §4.3 steps 5-7), for records with at
least two usable points: the bracketing pair per `spec_bracket`, the 1e-6
degenerate guard, and `y1 + (target_temp - x1) * (y2 - y1) / (x2 - x1)`. -/
def spec_capacity_at (m : MachineData) (t : ℚ) : Option ℚ :=
  match spec_bracket (sortPoints (collectPoints m)) t with
  | some pq =>
    some (if |pq.2.1 - pq.1.1| < 1 / 1000000 then pq.1.2
          else pq.1.2 + (t - pq.1.1) * (pq.2.2 - pq.1.2) / (pq.2.1 - pq.1.1))
  | none => none

/-! ## Identifier parser (src/main.rs:143-175) -/

/-- Split a token into (everything before the maximal trailing ASCII-digit
run, that digit run). -/
def splitTrailingDigits : List Char → List Char × List Char
  | [] => ([], [])
  | c :: cs =>
    let pd := splitTrailingDigits cs
    if pd.1 = [] ∧ c.isDigit then ([], c :: pd.2)
    else (c :: pd.1, pd.2)

/-- The semantics of `MODEL_QTY_RE = ^(.+)x(\d+)$` with greedy `.+`
(src/main.rs:145,152): capture everything before the last literal `x` that is
followed only by digits (at least one, running to the end), requiring a
non-empty part before that `x`. -/
def modelQtySplit (s : List Char) : Option (List Char × List Char) :=
  let pd := splitTrailingDigits s
  if pd.2.isEmpty then none
  else
    match pd.1.getLast? with
    | some c =>
      if c = 'x' ∧ 2 ≤ pd.1.length then some (pd.1.dropLast, pd.2) else none
    | none => none

/-- The semantics of `CODE_QTY_RE.is_match = ^([a-zA-Z0-9]+?)(\d+)$`
(src/main.rs:146,154): all ASCII alphanumerics, length at least two, last
character a digit. -/
def codeQtyMatches (s : List Char) : Bool :=
  s.all Char.isAlphanum && decide (2 ≤ s.length) &&
    (match s.getLast? with
     | some c => c.isDigit
     | none => false)

/-- `item.rfind(|c| !c.is_ascii_digit())` (src/main.rs:155): index of the
last non-digit character. -/
def rfindNonDigit : List Char → Option Nat
  | [] => none
  | c :: cs =>
    match rfindNonDigit cs with
    | some i => some (i + 1)
    | none => if c.isDigit then none else some 0

/-- The per-token (identifier, quantity-string) decomposition of
`parse_user_input` (src/main.rs:152-169): the `x<digits>` rule first, then
the bare trailing-digit rule via `rfind`, then the verbatim fallback; the
`rfind = None` case is the `Format error` branch. -/
def splitToken (item : List Char) : Except String (List Char × List Char) :=
  match modelQtySplit item with
  | some idq => .ok idq
  | none =>
    if codeQtyMatches item then
      match rfindNonDigit item with
      | some idx =>
        if idx < item.length - 1 then
          .ok (item.take (idx + 1), item.drop (idx + 1))
        else
          .ok (item, ['1'])
      | none => .error ("Format error: " ++ item.asString)
    else
      .ok (item, ['1'])

/-- Numeric value of a digit string. -/
def digitsToNat (ds : List Char) : Nat :=
  ds.foldl (fun n c => n * 10 + (c.toNat - '0'.toNat)) 0

/-- `count_str.parse::<u32>()` restricted to the digit strings that reach it:
fails (`none`) on the empty string, a non-digit, or `u32` overflow. -/
def parseU32 (ds : List Char) : Option Nat :=
  if ds ≠ [] ∧ ds.all Char.isDigit ∧ digitsToNat ds < 2 ^ 32 then
    some (digitsToNat ds)
  else none

/-- `*map.entry(k).or_insert(0) += v` on a map modelled as an association
list (key order = first-insertion order; the claims only depend on the map
contents). -/
def insertAdd {κ : Type} [DecidableEq κ] :
    List (κ × Nat) → κ → Nat → List (κ × Nat)
  | [], k, v => [(k, v)]
  | (k', v') :: rest, k, v =>
    if k' = k then (k', v' + v) :: rest else (k', v') :: insertAdd rest k v

/-- `parse_user_input` (src/main.rs:143-175): split each token, parse the
quantity, and accumulate quantities per identifier. -/
def parse_user_input (inputs : List (List Char)) :
    Except String (List (List Char × Nat)) :=
  inputs.foldlM
    (fun acc item => do
      let idq ← splitToken item
      match parseU32 idq.2 with
      | some c => pure (insertAdd acc idq.1 c)
      | none => Except.error "Qty must be integer")
    []

/-! ## Aggregation and totals (src/main.rs:193-272) -/

/-- `HashMap::get` on a catalog modelled as an association list. -/
def lookup (cat : List (String × MachineData)) (k : String) : Option MachineData :=
  match cat with
  | [] => none
  | (k', v) :: rest => if k' = k then some v else lookup rest k

/-- The pre-aggregation loop of `perform_calculation` (src/main.rs:216-225):
resolved identifiers accumulate into per-canonical-model counts, unresolved
ones are appended — in iteration order of `user_input` — to the
not-found list. -/
def aggregate (user_input : List (String × Nat))
    (machine_data : List (String × MachineData)) :
    List (String × Nat) × List (String × Nat) :=
  user_input.foldl
    (fun acc p =>
      match lookup machine_data p.1 with
      | some data => (insertAdd acc.1 data.model_number p.2, acc.2)
      | none => (acc.1, acc.2 ++ [p]))
    ([], [])

/-- `CalculationTotals` (src/main.rs:121-128); `Default` zero-initialises. -/
structure CalculationTotals where
  total_btu_95_min : ℚ := 0
  total_btu_5_max : ℚ := 0
  total_btu_17_max : ℚ := 0
  total_btu_17_rated : ℚ := 0
  total_btu_design_max : ℚ := 0
deriving DecidableEq

def initTotals : CalculationTotals := {}

/-- One iteration of the totals loop (src/main.rs:231-255): look the model up
(skipping when absent, as the `if let` does) and add each contribution
multiplied by the quantity, absent fields contributing `0`. -/
def addModel (machine_data : List (String × MachineData)) (design_temp : ℚ)
    (totals : CalculationTotals) (entry : String × Nat) : CalculationTotals :=
  match lookup machine_data entry.1 with
  | some data =>
    let qty : ℚ := (entry.2 : ℚ)
    { total_btu_95_min := totals.total_btu_95_min + data.btu_95_min.getD 0 * qty
      total_btu_design_max := totals.total_btu_design_max +
        calculate_heating_capacity_at_temp data design_temp * qty
      total_btu_5_max := totals.total_btu_5_max + data.btu_5_max.getD 0 * qty
      total_btu_17_max := totals.total_btu_17_max + data.btu_17_max.getD 0 * qty
      total_btu_17_rated := totals.total_btu_17_rated + data.btu_17_rated.getD 0 * qty }
  | none => totals

/-- Sort key of `sorted_models.sort_by(|a, b| a.0.cmp(&b.0))` (src/main.rs:229). -/
def keyLE : String × Nat → String × Nat → Prop := fun a b => a.1 ≤ b.1

instance : DecidableRel keyLE := fun a b => inferInstanceAs (Decidable (a.1 ≤ b.1))

/-- The numeric core of `perform_calculation` (src/main.rs:193-272):
aggregate, sort the resolved canonical models by model number, and fold the
totals.  (Table rendering is presentation-only and not modelled.) -/
def perform_calculation (user_input : List (String × Nat))
    (machine_data : List (String × MachineData)) (design_temp : ℚ) :
    CalculationTotals :=
  let agg := aggregate user_input machine_data
  let sorted_models := List.insertionSort keyLE agg.1
  sorted_models.foldl (addModel machine_data design_temp) initTotals

/-! ## Concrete records used by witnesses and counterexamples -/

/-- A record with no usable capacity point. -/
def mEmpty : MachineData := ⟨"E", none, none, none, none, none, none, none, none, none⟩

/-- A record whose only usable point is `(17, 42)`. -/
def mOne : MachineData := ⟨"O", none, none, none, none, none, none, some 42, none, none⟩

/-- A record with the two usable points `(5, 100)` and `(47, 200)`. -/
def mTwo : MachineData := ⟨"T", none, none, none, none, none, some 100, none, none, some 200⟩

/-- A record whose two usable points `(5, 200)` and `(5 + 1/2000000, 100)`
have temperatures closer than the 1e-6 degenerate-interval tolerance. -/
def mCx : MachineData :=
  ⟨"C", none, none, none, some 100, some (5 + 1 / 2000000), some 200, none, none, none⟩

/-- A loader-produced `FVal`-level record. -/
def mF : MachineDataF := ⟨some (.num 5), some (.num 100), none, none, none⟩

/-! ## Parser lemmas -/

theorem splitTrailingDigits_all_digits (s : List Char)
    (h : ∀ c ∈ s, c.isDigit = true) : splitTrailingDigits s = ([], s) := by
  induction s with
  | nil => rfl
  | cons c cs ih =>
    have hc : c.isDigit = true := h c (by simp)
    have ih' := ih (fun x hx => h x (by simp [hx]))
    simp [splitTrailingDigits, ih', hc]

theorem rfindNonDigit_all_digits (s : List Char)
    (h : ∀ c ∈ s, c.isDigit = true) : rfindNonDigit s = none := by
  induction s with
  | nil => rfl
  | cons c cs ih =>
    have hc : c.isDigit = true := h c (by simp)
    have ih' := ih (fun x hx => h x (by simp [hx]))
    simp [rfindNonDigit, ih', hc]

theorem splitTrailingDigits_cons (x : Char) (xs : List Char) :
    splitTrailingDigits (x :: xs) =
      if (splitTrailingDigits xs).1 = [] ∧ x.isDigit = true
      then ([], x :: (splitTrailingDigits xs).2)
      else (x :: (splitTrailingDigits xs).1, (splitTrailingDigits xs).2) := rfl

theorem splitTrailingDigits_append (p d : List Char)
    (hd : ∀ c ∈ d, c.isDigit = true)
    (hp : ∀ c, p.getLast? = some c → c.isDigit = false) :
    splitTrailingDigits (p ++ d) = (p, d) := by
  induction p with
  | nil => simpa using splitTrailingDigits_all_digits d hd
  | cons c p' ih =>
    cases p' with
    | nil =>
      have hc : c.isDigit = false := hp c rfl
      rw [List.cons_append, List.nil_append, splitTrailingDigits_cons,
        splitTrailingDigits_all_digits d hd]
      simp [hc]
    | cons c' p'' =>
      have ih' := ih (fun x hx => hp x (by rwa [List.getLast?_cons_cons]))
      rw [List.cons_append, splitTrailingDigits_cons, ih']
      simp

/-- C2 (amended and proved): an all-digit token of length at most one is kept
whole with quantity 1, but an all-digit token of length at least two matches
`CODE_QTY_RE`, `rfind` of a non-digit finds nothing, and the parser fails
with the defensive `Format error` (`MalformedToken`) branch — the branch the
spec calls practically unreachable is exactly what such tokens reach. -/
theorem splitToken_all_digits (token : List Char)
    (hdig : ∀ c ∈ token, c.isDigit = true) :
    (token.length ≤ 1 → splitToken token = .ok (token, ['1'])) ∧
    (2 ≤ token.length →
      splitToken token = .error ("Format error: " ++ token.asString)) := by
  have hstd := splitTrailingDigits_all_digits token hdig
  have hmq : modelQtySplit token = none := by
    simp [modelQtySplit, hstd]
  constructor
  · intro hlen
    have hcq : codeQtyMatches token = false := by
      have : ¬ 2 ≤ token.length := by omega
      simp [codeQtyMatches, this]
    simp [splitToken, hmq, hcq]
  · intro hlen
    have hcq : codeQtyMatches token = true := by
      have hall : token.all Char.isAlphanum = true := by
        rw [List.all_eq_true]
        intro c hc
        have := hdig c hc
        simp [Char.isAlphanum, this]
      rcases List.eq_nil_or_concat token with h | ⟨L, b, h⟩
      · rw [h] at hlen; simp at hlen
      · have hb : token.getLast? = some b := by
          rw [h, List.concat_eq_append, List.getLast?_concat]
        have hbd : b.isDigit = true := by
          refine hdig b ?_
          rw [h, List.concat_eq_append]
          simp
        simp [codeQtyMatches, hall, hlen, hb, hbd]
    have hrf : rfindNonDigit token = none := rfindNonDigit_all_digits token hdig
    simp [splitToken, hmq, hcq, hrf]

/-- C2 counterexample: the all-digit token `"12"` does not become the literal
identifier `"12"` with quantity 1; the parser fails with the `Format error`
(`MalformedToken`) branch, because the token matches `CODE_QTY_RE` and
`rfind` of a non-digit finds nothing. -/
theorem splitToken_all_digits_cx :
    (['1', '2'] : List Char).all Char.isDigit = true ∧
    splitToken ['1', '2'] = .error "Format error: 12" := by
  constructor
  · decide
  · rfl

/-- Witness for the amended C2 at the tokens `"7"` and `"12"`. -/
theorem splitToken_all_digits_witness :
    splitToken ['7'] = .ok (['7'], ['1']) ∧
    splitToken ['1', '2'] = .error ("Format error: " ++ ['1', '2'].asString) :=
  ⟨(splitToken_all_digits ['7'] (by decide)).1 (by decide),
   (splitToken_all_digits ['1', '2'] (by decide)).2 (by decide)⟩

/-- C4: a token of shape `<anything>x<digits>` is split at the last such
`x<digits>` suffix, before the bare trailing-digit rule is tried: the
identifier is everything before that `x`, the quantity string is the digit
run, and `parse_user_input` records that identifier with the digits' numeric
value (when it fits in `u32`). -/
theorem splitToken_x_suffix (token a d : List Char)
    (hsplit : token = a ++ 'x' :: d) (ha : a ≠ []) (hd : d ≠ [])
    (hdig : ∀ c ∈ d, c.isDigit = true) :
    splitToken token = .ok (a, d) ∧
    (digitsToNat d < 2 ^ 32 →
      parse_user_input [token] = .ok [(a, digitsToNat d)]) := by
  have h1 : token = (a ++ ['x']) ++ d := by
    rw [hsplit, List.append_assoc, List.singleton_append]
  have hstd : splitTrailingDigits token = (a ++ ['x'], d) := by
    rw [h1]
    refine splitTrailingDigits_append _ _ hdig ?_
    intro c hc
    rw [List.getLast?_concat] at hc
    cases hc
    decide
  have hmq : modelQtySplit token = some (a, d) := by
    have hlen : 2 ≤ (a ++ ['x']).length := by
      have : 0 < a.length := List.length_pos.mpr ha
      simp only [List.length_append, List.length_singleton]
      omega
    have hdne : d.isEmpty = false := by
      rw [List.isEmpty_eq_false]
      exact hd
    simp [modelQtySplit, hstd, hdne, List.getLast?_concat, hlen,
      List.dropLast_concat, ha]
  have hst : splitToken token = .ok (a, d) := by
    simp [splitToken, hmq]
  refine ⟨hst, ?_⟩
  intro hfit
  have hpu : parseU32 d = some (digitsToNat d) := by
    have hall : d.all Char.isDigit = true := List.all_eq_true.mpr hdig
    have hfit' : digitsToNat d < 4294967296 := by norm_num at hfit; exact hfit
    simp [parseU32, hd, hall, hfit']
  simp only [parse_user_input, List.foldlM, hst]
  simp [insertAdd]
  show (match parseU32 d with
    | some c => pure [(a, c)]
    | none => (Except.error "Qty must be integer" : Except String _)) =
    Except.ok [(a, digitsToNat d)]
  rw [hpu]
  rfl

/-- Witness for C4 at the spec's scenario token `"KM18H5Ox2"`: identifier
`"KM18H5O"`, quantity 2. -/
theorem splitToken_x_suffix_witness :
    splitToken "KM18H5Ox2".toList = .ok ("KM18H5O".toList, ['2']) ∧
    parse_user_input ["KM18H5Ox2".toList] = .ok [("KM18H5O".toList, 2)] :=
  ⟨(splitToken_x_suffix "KM18H5Ox2".toList "KM18H5O".toList ['2']
      (by decide) (by decide) (by decide) (by decide)).1,
   (splitToken_x_suffix "KM18H5Ox2".toList "KM18H5O".toList ['2']
      (by decide) (by decide) (by decide) (by decide)).2 (by decide)⟩

/-! ## Aggregation order (C3) -/

/-- The unresolved list produced by the aggregation pass is exactly the
requested pairs that fail catalog lookup, in the requested map's iteration
order (it is never sorted). -/
theorem aggregate_unresolved_aux (cat : List (String × MachineData)) :
    ∀ (input : List (String × Nat)) (acc : List (String × Nat) × List (String × Nat)),
      (input.foldl
        (fun acc p =>
          match lookup cat p.1 with
          | some data => (insertAdd acc.1 data.model_number p.2, acc.2)
          | none => (acc.1, acc.2 ++ [p]))
        acc).2 =
      acc.2 ++ input.filter (fun p => (lookup cat p.1).isNone) := by
  intro input
  induction input with
  | nil => intro acc; simp
  | cons p rest ih =>
    intro acc
    rcases h : lookup cat p.1 with _ | data
    · simp only [List.foldl_cons, h]
      rw [ih]
      simp [List.filter_cons, h]
    · simp only [List.foldl_cons, h]
      rw [ih]
      simp [List.filter_cons, h]

/-- C3 counterexample: the unresolved list is not independent of the
requested map's iteration order.  The same two-entry map, iterated in the two
possible orders over a catalog resolving neither key, yields two different
unresolved lists (neither of them sorted by identifier in the second case). -/
theorem aggregate_unresolved_order_cx :
    ([("A", 1), ("B", 2)] : List (String × Nat)).Perm [("B", 2), ("A", 1)] ∧
    ("A" : String) ≠ "B" ∧
    (aggregate [("A", 1), ("B", 2)] []).2 ≠ (aggregate [("B", 2), ("A", 1)] []).2 := by
  refine ⟨List.Perm.swap _ _ _, ?_, ?_⟩ <;> decide

/-- C3 (amended and proved): the unresolved (identifier, quantity) list is
exactly the requested pairs that fail catalog lookup, in the requested map's
iteration order — so it depends on that iteration order and is not sorted;
only the resolved rows are later emitted in sorted canonical-model order. -/
theorem aggregate_unresolved_order (input : List (String × Nat))
    (cat : List (String × MachineData)) :
    (aggregate input cat).2 = input.filter (fun p => (lookup cat p.1).isNone) := by
  have h := aggregate_unresolved_aux cat input ([], [])
  simpa [aggregate] using h

/-! ## Interpolation: degenerate point sets (C5, C6) -/

/-- C5: a record in which every capacity point is missing a coordinate yields
capacity 0 at every target temperature, as a defined result. -/
theorem capacity_at_no_points (m : MachineData)
    (h1 : m.lowest_temp = none ∨ m.btu_lowest_max = none)
    (h5 : m.btu_5_max = none) (h17 : m.btu_17_max = none)
    (h47 : m.btu_47_max = none) (t : ℚ) :
    calculate_heating_capacity_at_temp m t = 0 := by
  have hcp : collectPoints m = [] := by
    rcases h1 with h | h <;>
      rcases hl : m.lowest_temp with _ | a <;>
      rcases hb : m.btu_lowest_max with _ | b <;>
      simp_all [collectPoints]
  simp [calculate_heating_capacity_at_temp, hcp]

/-- Witness for C5 at a record with all numeric fields absent. -/
theorem capacity_at_no_points_witness :
    (mEmpty.lowest_temp = none ∨ mEmpty.btu_lowest_max = none) ∧
    calculate_heating_capacity_at_temp mEmpty 123 = 0 :=
  ⟨Or.inl rfl, capacity_at_no_points mEmpty (Or.inl rfl) rfl rfl rfl 123⟩

/-- C6: a record with exactly one usable capacity point `(x, y)` yields `y`
at every target temperature. -/
theorem capacity_at_one_point (m : MachineData) (x y : ℚ)
    (h : collectPoints m = [(x, y)]) (t : ℚ) :
    calculate_heating_capacity_at_temp m t = y := by
  simp [calculate_heating_capacity_at_temp, h]

/-- Witness for C6: a record whose single usable point is `(17, 42)` yields
42 even at target temperature −100. -/
theorem capacity_at_one_point_witness :
    collectPoints mOne = [(17, 42)] ∧
    calculate_heating_capacity_at_temp mOne (-100) = 42 :=
  ⟨rfl, capacity_at_one_point mOne 17 42 rfl (-100)⟩

/-! ## Deserialization filters (C9) and NaN-unreachability (C10) -/

/-- C9: the custom numeric deserializer turns unparseable text, missing
cells, and any parsed value at or below the −90000 sentinel into `none`;
any value it does keep is strictly above −90000 (so sentinel/invalid values
never reach interpolation or totals as numbers); and the AHRI deserializer
turns unparseable/missing cells and any value at or below 0 into `none`. -/
theorem deserialize_filters :
    (∀ v : ℚ, v ≤ -90000 → deserialize_f64_custom (.parsed (.num v)) = none) ∧
    deserialize_f64_custom .unparseable = none ∧
    deserialize_f64_custom .missing = none ∧
    (∀ c v, deserialize_f64_custom c = some (.num v) → -90000 < v) ∧
    (∀ v : ℚ, v ≤ 0 → deserialize_ahri (.parsed (.num v)) = none) ∧
    deserialize_ahri .unparseable = none ∧
    deserialize_ahri .missing = none := by
  refine ⟨?_, rfl, rfl, ?_, ?_, rfl, rfl⟩
  · intro v hv
    simp [deserialize_f64_custom, fgt, not_lt.mpr hv]
  · intro c v h
    cases c with
    | missing => simp [deserialize_f64_custom] at h
    | unparseable => simp [deserialize_f64_custom] at h
    | parsed w =>
      rcases hw : fgt w (.num (-90000)) with _ | _
      · simp [deserialize_f64_custom, hw] at h
      · simp [deserialize_f64_custom, hw] at h
        subst h
        simpa [fgt] using hw
  · intro v hv
    simp [deserialize_ahri, fgt, not_lt.mpr hv]

/-- Witness for C9 at the sentinel value −90000 and the AHRI value 0. -/
theorem deserialize_filters_witness :
    ((-90000 : ℚ) ≤ -90000 ∧
      deserialize_f64_custom (.parsed (.num (-90000))) = none) ∧
    ((0 : ℚ) ≤ 0 ∧ deserialize_ahri (.parsed (.num 0)) = none) :=
  ⟨⟨le_refl _, deserialize_filters.1 (-90000) (le_refl _)⟩,
   ⟨le_refl _, deserialize_filters.2.2.2.2.1 0 (le_refl _)⟩⟩

theorem deserialize_f64_custom_ne_nan (c : CellValue) :
    deserialize_f64_custom c ≠ some FVal.nan := by
  cases c with
  | missing => simp [deserialize_f64_custom]
  | unparseable => simp [deserialize_f64_custom]
  | parsed v =>
    cases v <;> simp [deserialize_f64_custom, fgt]

theorem fvalCompare_isSome_of_ne_nan (a b : FVal)
    (ha : a ≠ FVal.nan) (hb : b ≠ FVal.nan) : (fvalCompare a b).isSome := by
  cases a <;> cases b <;> simp_all [fvalCompare]

/-- C10: for a record whose optional numeric point fields were produced by
`deserialize_f64_custom` (the loader), no stored point coordinate is NaN —
a parsed NaN fails the `v > -90000.0` filter and becomes absent, and the
non-loader temperatures are the literals 5, 17 and 47 — so Rust's
`partial_cmp` on any two point temperatures is `Some` and the `unwrap`
inside the sort comparator is unreachable. -/
theorem loader_points_no_nan (m : MachineDataF)
    (hlt : ∃ c, m.lowest_temp = deserialize_f64_custom c)
    (hbl : ∃ c, m.btu_lowest_max = deserialize_f64_custom c)
    (hb5 : ∃ c, m.btu_5_max = deserialize_f64_custom c)
    (hb17 : ∃ c, m.btu_17_max = deserialize_f64_custom c)
    (hb47 : ∃ c, m.btu_47_max = deserialize_f64_custom c) :
    (∀ p ∈ collectPointsF m, p.1 ≠ FVal.nan ∧ p.2 ≠ FVal.nan) ∧
    (∀ p ∈ collectPointsF m, ∀ q ∈ collectPointsF m,
      (fvalCompare p.1 q.1).isSome) := by
  have hnn : ∀ (f : Option FVal), (∃ c, f = deserialize_f64_custom c) →
      ∀ v, f = some v → v ≠ FVal.nan := by
    rintro f ⟨c, rfl⟩ v hv hnan
    subst hnan
    exact deserialize_f64_custom_ne_nan c hv
  have hmain : ∀ p ∈ collectPointsF m, p.1 ≠ FVal.nan ∧ p.2 ≠ FVal.nan := by
    intro p hp
    unfold collectPointsF at hp
    simp only [List.mem_append] at hp
    rcases hp with ((hp | hp) | hp) | hp
    · rcases hl : m.lowest_temp with _ | temp
      · rw [hl] at hp; simp at hp
      · rcases hb : m.btu_lowest_max with _ | val
        · rw [hl, hb] at hp; simp at hp
        · rw [hl, hb] at hp
          simp at hp
          subst hp
          exact ⟨hnn m.lowest_temp hlt temp hl, hnn m.btu_lowest_max hbl val hb⟩
    · rcases hb : m.btu_5_max with _ | val <;> rw [hb] at hp <;> simp at hp
      subst hp
      exact ⟨by simp, hnn m.btu_5_max hb5 val hb⟩
    · rcases hb : m.btu_17_max with _ | val <;> rw [hb] at hp <;> simp at hp
      subst hp
      exact ⟨by simp, hnn m.btu_17_max hb17 val hb⟩
    · rcases hb : m.btu_47_max with _ | val <;> rw [hb] at hp <;> simp at hp
      subst hp
      exact ⟨by simp, hnn m.btu_47_max hb47 val hb⟩
  refine ⟨hmain, ?_⟩
  intro p hp q hq
  exact fvalCompare_isSome_of_ne_nan _ _ (hmain p hp).1 (hmain q hq).1

/-- Witness for C10 at a concrete loader-produced record. -/
theorem loader_points_no_nan_witness :
    mF.lowest_temp = deserialize_f64_custom (.parsed (.num 5)) ∧
    (∀ p ∈ collectPointsF mF, p.1 ≠ FVal.nan ∧ p.2 ≠ FVal.nan) ∧
    (∀ p ∈ collectPointsF mF, ∀ q ∈ collectPointsF mF,
      (fvalCompare p.1 q.1).isSome) :=
  ⟨by decide,
   loader_points_no_nan mF ⟨.parsed (.num 5), by decide⟩
     ⟨.parsed (.num 100), by decide⟩ ⟨.missing, rfl⟩ ⟨.missing, rfl⟩
     ⟨.missing, rfl⟩⟩

/-! ## Interpolation engine lemmas (C1, C7) -/

theorem sep_symm : ∀ {p q : ℚ × ℚ}, sep p q → sep q p := by
  intro p q h
  unfold sep at h ⊢
  rwa [abs_sub_comm]

theorem exists_two_cons {α : Type} (l : List α) (h2 : 2 ≤ l.length) :
    ∃ p0 p1 rest, l = p0 :: p1 :: rest := by
  cases l with
  | nil => simp at h2
  | cons a l' =>
    cases l' with
    | nil => simp at h2
    | cons b rest => exact ⟨a, b, rest, rfl⟩

theorem capacity_eq_interp (m : MachineData) (t : ℚ)
    (h2 : 2 ≤ (collectPoints m).length) :
    calculate_heating_capacity_at_temp m t =
      interpPair t (selectPair (sortPoints (collectPoints m)) t) := by
  have hne : (collectPoints m).isEmpty = false := by
    rw [List.isEmpty_eq_false]
    intro h
    rw [h] at h2
    simp at h2
  have h1 : ¬ (collectPoints m).length = 1 := by omega
  simp [calculate_heating_capacity_at_temp, hne, h1]

theorem findWindow_cons (t : ℚ) (a b : ℚ × ℚ) (rest : List (ℚ × ℚ)) :
    findWindow t (a :: b :: rest) =
      if a.1 ≤ t ∧ t ≤ b.1 then some (a, b) else findWindow t (b :: rest) := rfl

theorem lastTwo_isSome : ∀ (l : List (ℚ × ℚ)), 2 ≤ l.length → (lastTwo l).isSome := by
  intro l
  induction l with
  | nil => intro h; simp at h
  | cons a l' ih =>
    cases l' with
    | nil => intro h; simp at h
    | cons b rest =>
      cases rest with
      | nil => intro _; rfl
      | cons c rest' =>
        intro _
        have hstep : lastTwo (a :: b :: c :: rest') = lastTwo (b :: c :: rest') := rfl
        rw [hstep]
        refine ih ?_
        simp

theorem lastTwo_decomp : ∀ (l : List (ℚ × ℚ)) (a b : ℚ × ℚ),
    lastTwo l = some (a, b) → ∃ l₀, l = l₀ ++ [a, b] := by
  intro l
  induction l with
  | nil => intro a b h; simp [lastTwo] at h
  | cons x l' ih =>
    cases l' with
    | nil => intro a b h; simp [lastTwo] at h
    | cons y rest =>
      cases rest with
      | nil =>
        intro a b h
        simp [lastTwo] at h
        obtain ⟨h1, h2⟩ := h
        subst h1
        subst h2
        exact ⟨[], rfl⟩
      | cons z rest' =>
        intro a b h
        have hstep : lastTwo (x :: y :: z :: rest') = lastTwo (y :: z :: rest') := rfl
        rw [hstep] at h
        obtain ⟨l₀, hl₀⟩ := ih a b h
        exact ⟨x :: l₀, by rw [List.cons_append, ← hl₀]⟩

theorem findWindow_isSome (t : ℚ) : ∀ (l : List (ℚ × ℚ)) (a b : ℚ × ℚ),
    a.1 ≤ t → t ≤ ((b :: l).getLast (List.cons_ne_nil _ _)).1 →
    (findWindow t (a :: b :: l)).isSome := by
  intro l
  induction l with
  | nil =>
    intro a b h1 h2
    rw [findWindow_cons, if_pos ⟨h1, by simpa using h2⟩]
    rfl
  | cons c l' ih =>
    intro a b h1 h2
    by_cases hc : a.1 ≤ t ∧ t ≤ b.1
    · rw [findWindow_cons, if_pos hc]
      rfl
    · have hb : b.1 ≤ t := by
        rcases not_and_or.mp hc with h | h
        · exact absurd h1 h
        · exact le_of_not_le h
      rw [findWindow_cons, if_neg hc]
      refine ih b c hb ?_
      rwa [List.getLast_cons (List.cons_ne_nil _ _)] at h2

theorem findWindow_decomp (t : ℚ) : ∀ (l : List (ℚ × ℚ)) (w1 w2 : ℚ × ℚ),
    findWindow t l = some (w1, w2) → ∃ l₀ l₁, l = l₀ ++ w1 :: w2 :: l₁ := by
  intro l
  induction l with
  | nil => intro w1 w2 h; simp [findWindow] at h
  | cons a l' ih =>
    cases l' with
    | nil => intro w1 w2 h; simp [findWindow] at h
    | cons b rest =>
      intro w1 w2 h
      rw [findWindow_cons] at h
      by_cases hc : a.1 ≤ t ∧ t ≤ b.1
      · rw [if_pos hc] at h
        simp at h
        obtain ⟨h1, h2⟩ := h
        subst h1
        subst h2
        exact ⟨[], rest, rfl⟩
      · rw [if_neg hc] at h
        obtain ⟨l₀, l₁, hl⟩ := ih w1 w2 h
        exact ⟨a :: l₀, l₁, by rw [List.cons_append, ← hl]⟩

theorem findWindow_mem_node (t y : ℚ) : ∀ (l : List (ℚ × ℚ)) (w1 w2 : ℚ × ℚ),
    List.Sorted ptLE l → l.Pairwise sep → (t, y) ∈ l →
    findWindow t l = some (w1, w2) → (t, y) = w1 ∨ (t, y) = w2 := by
  intro l
  induction l with
  | nil =>
    intro w1 w2 _ _ hm
    simp at hm
  | cons a l' ih =>
    cases l' with
    | nil =>
      intro w1 w2 _ _ _ h
      simp [findWindow] at h
    | cons b rest =>
      intro w1 w2 hsort hsep hmem hfw
      rw [findWindow_cons] at hfw
      by_cases hc : a.1 ≤ t ∧ t ≤ b.1
      · rw [if_pos hc] at hfw
        simp at hfw
        obtain ⟨h1, h2⟩ := hfw
        subst h1
        subst h2
        rcases List.mem_cons.mp hmem with h1 | hmem'
        · exact Or.inl h1
        · rcases List.mem_cons.mp hmem' with h2 | hmem''
          · exact Or.inr h2
          · exfalso
            have hsort' : List.Sorted ptLE (b :: rest) := hsort.of_cons
            have hbt : b.1 ≤ t := List.rel_of_sorted_cons hsort' _ hmem''
            have hteq : t = b.1 := le_antisymm hc.2 hbt
            have hsepb : sep b (t, y) := (List.pairwise_cons.mp hsep.of_cons).1 _ hmem''
            unfold sep at hsepb
            rw [hteq] at hsepb
            simp at hsepb
            norm_num at hsepb
      · rw [if_neg hc] at hfw
        have hmem' : (t, y) ∈ b :: rest := by
          rcases List.mem_cons.mp hmem with h1 | h
          · exfalso
            have hta : t = a.1 := congrArg Prod.fst h1
            have hab : a.1 ≤ b.1 := List.rel_of_sorted_cons hsort _ (by simp)
            exact hc ⟨le_of_eq hta.symm, hta ▸ hab⟩
          · exact h
        exact ih w1 w2 hsort.of_cons hsep.of_cons hmem' hfw

theorem interpPair_fst (w1 w2 : ℚ × ℚ) (hs : sep w1 w2) :
    interpPair w1.1 (w1, w2) = w1.2 := by
  have hge : ¬ |w2.1 - w1.1| < 1 / 1000000 := by
    unfold sep at hs
    rw [abs_sub_comm] at hs
    exact not_lt.mpr hs
  simp only [interpPair]
  rw [if_neg hge]
  simp

theorem interpPair_snd (w1 w2 : ℚ × ℚ) (hs : sep w1 w2) :
    interpPair w2.1 (w1, w2) = w2.2 := by
  have hs' : (1 : ℚ) / 1000000 ≤ |w2.1 - w1.1| := by
    unfold sep at hs
    rwa [abs_sub_comm] at hs
  have hge : ¬ |w2.1 - w1.1| < 1 / 1000000 := not_lt.mpr hs'
  have hpos : (0 : ℚ) < |w2.1 - w1.1| := lt_of_lt_of_le (by norm_num) hs'
  have hne : w2.1 - w1.1 ≠ 0 := abs_pos.mp hpos
  simp only [interpPair]
  rw [if_neg hge]
  show w1.2 + (w2.1 - w1.1) * ((w2.2 - w1.2) / (w2.1 - w1.1)) = w2.2
  rw [mul_comm, div_mul_cancel₀ _ hne]
  ring

theorem spec_formula_eq_interpPair (pq : (ℚ × ℚ) × (ℚ × ℚ)) (t : ℚ) :
    (if |pq.2.1 - pq.1.1| < 1 / 1000000 then pq.1.2
     else pq.1.2 + (t - pq.1.1) * (pq.2.2 - pq.1.2) / (pq.2.1 - pq.1.1)) =
    interpPair t pq := by
  simp only [interpPair]
  by_cases h : |pq.2.1 - pq.1.1| < 1 / 1000000
  · rw [if_pos h, if_pos h]
  · rw [if_neg h, if_neg h, mul_div_assoc]

theorem spec_bracket_selectPair (sorted : List (ℚ × ℚ)) (t : ℚ)
    (h2 : 2 ≤ sorted.length) :
    spec_bracket sorted t = some (selectPair sorted t) := by
  obtain ⟨p0, p1, rest, rfl⟩ := exists_two_cons _ h2
  by_cases hA : t ≤ p0.1
  · simp [spec_bracket, selectPair, hA]
  by_cases hB : ((p1 :: rest).getLast (List.cons_ne_nil _ _)).1 ≤ t
  · obtain ⟨x, hx⟩ := Option.isSome_iff_exists.mp (lastTwo_isSome (p0 :: p1 :: rest) (by simp))
    simp [spec_bracket, selectPair, hA, hB, hx]
  · have h1 : p0.1 ≤ t := le_of_not_le hA
    have h2' : t ≤ ((p1 :: rest).getLast (List.cons_ne_nil _ _)).1 := le_of_not_le hB
    obtain ⟨x, hx⟩ := Option.isSome_iff_exists.mp (findWindow_isSome t rest p0 p1 h1 h2')
    simp [spec_bracket, selectPair, hA, hB, hx]

/-- C1: for a record with at least two usable points, the capacity computed
by the code equals the spec's description: bracketing pair selected as the
two lowest / two highest / first containing adjacent window (which always
exists in the middle case), then
`y1 + (target_temp - x1) * (y2 - y1) / (x2 - x1)` with the first point's
capacity returned unchanged when the pair's temperatures differ by less than
1e-6. -/
theorem capacity_at_bracketing (m : MachineData) (t : ℚ)
    (h2 : 2 ≤ (collectPoints m).length) :
    spec_capacity_at m t = some (calculate_heating_capacity_at_temp m t) := by
  have hperm := List.perm_insertionSort ptLE (collectPoints m)
  have hlen : 2 ≤ (sortPoints (collectPoints m)).length := by
    unfold sortPoints
    rw [hperm.length_eq]
    exact h2
  have hsb := spec_bracket_selectPair (sortPoints (collectPoints m)) t hlen
  unfold spec_capacity_at
  rw [hsb, capacity_eq_interp m t h2]
  exact congrArg some (spec_formula_eq_interpPair _ t)

/-- Witness for C1 at the two-point record `mTwo` and target 20. -/
theorem capacity_at_bracketing_witness :
    2 ≤ (collectPoints mTwo).length ∧
    spec_capacity_at mTwo 20 = some (calculate_heating_capacity_at_temp mTwo 20) :=
  ⟨by decide, capacity_at_bracketing mTwo 20 (by decide)⟩

theorem capacity_mCx_eval :
    calculate_heating_capacity_at_temp mCx (5 + 1 / 2000000) = 200 := by
  have hcp : collectPoints mCx = [(5 + 1 / 2000000, 100), (5, 200)] := rfl
  have h2 : 2 ≤ (collectPoints mCx).length := by rw [hcp]; simp
  rw [capacity_eq_interp mCx _ h2]
  have hsorted : sortPoints (collectPoints mCx) = [(5, 200), (5 + 1 / 2000000, 100)] := by
    rw [hcp]
    show List.insertionSort ptLE _ = _
    norm_num [List.insertionSort, List.orderedInsert, ptLE]
  rw [hsorted]
  have hsel : selectPair [(5, 200), (5 + 1 / 2000000, 100)] (5 + 1 / 2000000) =
      ((5, 200), (5 + 1 / 2000000, 100)) := by
    norm_num [selectPair, lastTwo]
  rw [hsel]
  norm_num [interpPair]
  rw [abs_of_pos (show (0 : ℚ) < 1 / 2000000 by norm_num)]
  norm_num

/-- C7 counterexample: in record `mCx` the target `5 + 1/2000000` is exactly
the temperature of the usable point `(5 + 1/2000000, 100)`, yet `capacity_at`
returns 200 (the other point's capacity): the bracketing pair's temperatures
differ by `5e-7 < 1e-6`, so the degenerate-interval guard returns the first
point's capacity instead of the node value. -/
theorem capacity_at_exact_node_cx :
    ((5 + 1 / 2000000 : ℚ), (100 : ℚ)) ∈ collectPoints mCx ∧
    2 ≤ (collectPoints mCx).length ∧
    calculate_heating_capacity_at_temp mCx (5 + 1 / 2000000) ≠ 100 := by
  refine ⟨?_, ?_, ?_⟩
  · rw [show collectPoints mCx = [(5 + 1 / 2000000, 100), (5, 200)] from rfl]
    exact List.mem_cons_self _ _
  · rw [show collectPoints mCx = [(5 + 1 / 2000000, 100), (5, 200)] from rfl]
    simp
  · rw [capacity_mCx_eval]
    norm_num

/-- C7 (amended and proved): for a record with at least two usable points
whose temperatures are pairwise separated by at least the 1e-6 tolerance, a
target equal to a usable point's temperature returns exactly that point's
capacity.  (Without the separation hypothesis the degenerate-interval guard
can return the other point's capacity, as `capacity_at_exact_node_cx`
shows.) -/
theorem capacity_at_exact_node (m : MachineData) (t y : ℚ)
    (hsep : (collectPoints m).Pairwise sep)
    (hmem : (t, y) ∈ collectPoints m)
    (h2 : 2 ≤ (collectPoints m).length) :
    calculate_heating_capacity_at_temp m t = y := by
  rw [capacity_eq_interp m t h2]
  have hperm := List.perm_insertionSort ptLE (collectPoints m)
  have hlen : 2 ≤ (sortPoints (collectPoints m)).length := by
    unfold sortPoints
    rw [hperm.length_eq]
    exact h2
  have hsort : List.Sorted ptLE (sortPoints (collectPoints m)) :=
    List.sorted_insertionSort ptLE (collectPoints m)
  have hsep' : (sortPoints (collectPoints m)).Pairwise sep :=
    (List.Perm.pairwise_iff (fun h => sep_symm h) hperm).mpr hsep
  have hmem' : (t, y) ∈ sortPoints (collectPoints m) := hperm.mem_iff.mpr hmem
  obtain ⟨p0, p1, rest, heq⟩ := exists_two_cons _ hlen
  rw [heq] at hsort hsep' hmem' ⊢
  by_cases hA : t ≤ p0.1
  · have hsel : selectPair (p0 :: p1 :: rest) t = (p0, p1) := by
      simp [selectPair, hA]
    rw [hsel]
    have hty : (t, y) = p0 := by
      rcases List.mem_cons.mp hmem' with h1 | hmem''
      · exact h1
      · exfalso
        have h0t : p0.1 ≤ t := List.rel_of_sorted_cons hsort _ hmem''
        have hteq : t = p0.1 := le_antisymm hA h0t
        have hsep0 : sep p0 (t, y) := (List.pairwise_cons.mp hsep').1 _ hmem''
        unfold sep at hsep0
        rw [hteq] at hsep0
        simp at hsep0
        norm_num at hsep0
    have ht : t = p0.1 := congrArg Prod.fst hty
    have hy : y = p0.2 := congrArg Prod.snd hty
    have hs01 : sep p0 p1 := (List.pairwise_cons.mp hsep').1 _ (by simp)
    rw [ht, hy]
    exact interpPair_fst p0 p1 hs01
  · by_cases hB : ((p1 :: rest).getLast (List.cons_ne_nil _ _)).1 ≤ t
    · obtain ⟨⟨q, r⟩, hqr⟩ :=
        Option.isSome_iff_exists.mp (lastTwo_isSome (p0 :: p1 :: rest) (by simp))
      have hsel : selectPair (p0 :: p1 :: rest) t = (q, r) := by
        simp [selectPair, hA, hB, hqr]
      obtain ⟨l₀, hl₀⟩ := lastTwo_decomp _ q r hqr
      have hrlast : ((p1 :: rest).getLast (List.cons_ne_nil _ _)) = r := by
        have hgl : (p0 :: p1 :: rest).getLast (List.cons_ne_nil _ _) =
            (p1 :: rest).getLast (List.cons_ne_nil _ _) :=
          List.getLast_cons _
        have hgl2 : (p0 :: p1 :: rest).getLast (List.cons_ne_nil _ _) =
            ((l₀ ++ [q]) ++ [r]).getLast (by simp) :=
          List.getLast_congr _ _ (by rw [hl₀]; simp)
        rw [← hgl, hgl2, List.getLast_concat]
      rw [hsel]
      rw [hrlast] at hB
      have hl₀' : p0 :: p1 :: rest = (l₀ ++ [q]) ++ [r] := by
        rw [hl₀]
        simp
      rw [hl₀'] at hsort hsep' hmem'
      have hsortp := List.pairwise_append.mp hsort
      have hsepp := List.pairwise_append.mp hsep'
      have hty : (t, y) = r := by
        rcases List.mem_append.mp hmem' with hin | hin
        · exfalso
          have hle : ptLE (t, y) r := hsortp.2.2 _ hin r (by simp)
          have hteq : t = r.1 := le_antisymm hle hB
          have hsr : sep (t, y) r := hsepp.2.2 _ hin r (by simp)
          unfold sep at hsr
          rw [hteq] at hsr
          simp at hsr
          norm_num at hsr
        · simpa using hin
      have hsqr : sep q r := hsepp.2.2 _ (by simp) r (by simp)
      have ht : t = r.1 := congrArg Prod.fst hty
      have hy : y = r.2 := congrArg Prod.snd hty
      rw [ht, hy]
      exact interpPair_snd q r hsqr
    · have h1 : p0.1 ≤ t := le_of_not_le hA
      have h2' : t ≤ ((p1 :: rest).getLast (List.cons_ne_nil _ _)).1 := le_of_not_le hB
      obtain ⟨⟨w1, w2⟩, hw⟩ :=
        Option.isSome_iff_exists.mp (findWindow_isSome t rest p0 p1 h1 h2')
      have hsel : selectPair (p0 :: p1 :: rest) t = (w1, w2) := by
        simp [selectPair, hA, hB, hw]
      rw [hsel]
      obtain ⟨l₀, l₁, hl⟩ := findWindow_decomp t _ w1 w2 hw
      have hsw : sep w1 w2 := by
        have hx := hsep'
        rw [hl] at hx
        exact (List.pairwise_cons.mp (List.pairwise_append.mp hx).2.1).1 _ (by simp)
      rcases findWindow_mem_node t y _ w1 w2 hsort hsep' hmem' hw with hty | hty
      · have ht : t = w1.1 := congrArg Prod.fst hty
        have hy : y = w1.2 := congrArg Prod.snd hty
        rw [ht, hy]
        exact interpPair_fst w1 w2 hsw
      · have ht : t = w2.1 := congrArg Prod.fst hty
        have hy : y = w2.2 := congrArg Prod.snd hty
        rw [ht, hy]
        exact interpPair_snd w1 w2 hsw

/-- Witness for the amended C7: in `mTwo` (points `(5, 100)` and
`(47, 200)`, separated by far more than 1e-6) the capacity at target 5 is
exactly 100. -/
theorem capacity_at_exact_node_witness :
    (collectPoints mTwo).Pairwise sep ∧
    ((5 : ℚ), (100 : ℚ)) ∈ collectPoints mTwo ∧
    2 ≤ (collectPoints mTwo).length ∧
    calculate_heating_capacity_at_temp mTwo 5 = 100 :=
  ⟨by norm_num [List.pairwise_cons, sep,
      show collectPoints mTwo = [((5 : ℚ), (100 : ℚ)), (47, 200)] from rfl],
   by rw [show collectPoints mTwo = [((5 : ℚ), (100 : ℚ)), (47, 200)] from rfl]
      exact List.mem_cons_self _ _,
   by decide,
   capacity_at_exact_node mTwo 5 100
     (by norm_num [List.pairwise_cons, sep,
        show collectPoints mTwo = [((5 : ℚ), (100 : ℚ)), (47, 200)] from rfl])
     (by rw [show collectPoints mTwo = [((5 : ℚ), (100 : ℚ)), (47, 200)] from rfl]
         exact List.mem_cons_self _ _)
     (by decide)⟩

/-! ## Totals summation law (C8) -/

theorem foldl_totals_95 (cat : List (String × MachineData)) (t : ℚ) :
    ∀ (l : List (String × Nat)) (acc : CalculationTotals),
      (l.foldl (addModel cat t) acc).total_btu_95_min =
        acc.total_btu_95_min + (l.map (fun p =>
          match lookup cat p.1 with
          | some d => d.btu_95_min.getD 0 * (p.2 : ℚ)
          | none => 0)).sum := by
  intro l
  induction l with
  | nil => intro acc; simp
  | cons p rest ih =>
    intro acc
    rcases h : lookup cat p.1 with _ | d
    · simp only [List.foldl_cons, List.map_cons, List.sum_cons]
      rw [ih]
      simp [addModel, h]
    · simp only [List.foldl_cons, List.map_cons, List.sum_cons]
      rw [ih]
      simp [addModel, h]
      ring

theorem aggregate_fst_foldl (cat : List (String × MachineData)) :
    ∀ (input : List (String × Nat))
      (acc : List (String × Nat) × List (String × Nat)),
      (input.foldl
        (fun acc p =>
          match lookup cat p.1 with
          | some data => (insertAdd acc.1 data.model_number p.2, acc.2)
          | none => (acc.1, acc.2 ++ [p]))
        acc).1 =
      input.foldl
        (fun acc1 p =>
          match lookup cat p.1 with
          | some data => insertAdd acc1 data.model_number p.2
          | none => acc1)
        acc.1 := by
  intro input
  induction input with
  | nil => intro acc; rfl
  | cons p rest ih =>
    intro acc
    rcases h : lookup cat p.1 with _ | d <;>
      simp only [List.foldl_cons, h] <;>
      exact ih _

theorem canonical_counts_filter (cat : List (String × MachineData)) :
    ∀ (input : List (String × Nat)) (acc1 : List (String × Nat)),
      input.foldl
        (fun acc1 p =>
          match lookup cat p.1 with
          | some data => insertAdd acc1 data.model_number p.2
          | none => acc1)
        acc1 =
      (input.filter (fun p => (lookup cat p.1).isSome)).foldl
        (fun acc1 p =>
          match lookup cat p.1 with
          | some data => insertAdd acc1 data.model_number p.2
          | none => acc1)
        acc1 := by
  intro input
  induction input with
  | nil => intro acc1; rfl
  | cons p rest ih =>
    intro acc1
    rcases h : lookup cat p.1 with _ | d
    · simp only [List.foldl_cons, List.filter_cons, h]
      simp only [Option.isSome_none, Bool.false_eq_true, if_false]
      exact ih _
    · simp only [List.foldl_cons, List.filter_cons, h]
      simp only [Option.isSome_some, if_true]
      simp only [List.foldl_cons, h]
      exact ih _

/-- C8: the reported capacity-at-95-min total is the sum, over the resolved
canonical models produced by aggregation, of the record's `btu_95_min`
(0 when absent) times the aggregated quantity; and the unresolved
identifiers contribute nothing — dropping them from the input leaves every
one of the five totals unchanged. -/
theorem perform_calculation_totals (input : List (String × Nat))
    (cat : List (String × MachineData)) (t : ℚ) :
    (perform_calculation input cat t).total_btu_95_min =
      ((aggregate input cat).1.map (fun p =>
        match lookup cat p.1 with
        | some d => d.btu_95_min.getD 0 * (p.2 : ℚ)
        | none => 0)).sum ∧
    perform_calculation input cat t =
      perform_calculation (input.filter (fun p => (lookup cat p.1).isSome)) cat t := by
  constructor
  · simp only [perform_calculation]
    rw [foldl_totals_95]
    have hperm := List.perm_insertionSort keyLE (aggregate input cat).1
    have hsum := (hperm.map (fun p =>
      match lookup cat p.1 with
      | some d => d.btu_95_min.getD 0 * (p.2 : ℚ)
      | none => 0)).sum_eq
    rw [hsum]
    simp [initTotals]
  · simp only [perform_calculation]
    have hfst : (aggregate input cat).1 =
        (aggregate (input.filter (fun p => (lookup cat p.1).isSome)) cat).1 := by
      unfold aggregate
      rw [aggregate_fst_foldl, aggregate_fst_foldl]
      exact canonical_counts_filter cat input []
    rw [hfst]

end LoadCalc
